import Mathlib

/-!
Shallow embedding of the breadwallet-core light-node coordinator
(`src/ethereum/lightnode/BREthereumLightNodePrivate.h`).  The header declares
the lifecycle state enum, the node record, the three identity-indexed
registries (wallets, blocks, transactions), the five listener announce entry
points and the protocol-result handlers; the implementations are not among the
repository files, so the behaviour of each operation is modelled from the
specification, while the types and signatures follow the header.
-/

/-- The lifecycle states of a light node, exactly the enumerators of
`BREthereumLightNodeState` (`BREthereumLightNodePrivate.h`, lines 100-107). -/
inductive BREthereumLightNodeState where
  | LIGHT_NODE_CREATED
  | LIGHT_NODE_CONNECTING
  | LIGHT_NODE_CONNECTED
  | LIGHT_NODE_DISCONNECTING
  | LIGHT_NODE_DISCONNECTED
  | LIGHT_NODE_ERRORED
  deriving DecidableEq, Repr

/-- Modelled from the spec: the commands that drive the lifecycle state
machine of §4.4 — the two caller-triggered requests (connect, disconnect), the
collaborator's confirmations, and an unrecoverable protocol-layer failure. -/
inductive NodeCommand where
  | connectRequested
  | connectConfirmed
  | disconnectRequested
  | disconnectAcked
  | protocolFailure
  deriving DecidableEq, Repr

/-- Modelled from the spec: the lifecycle transition function of §4.4.
Connect moves `CREATED`/`DISCONNECTED` (and, on an explicit reconnect,
`ERRORED`) to `CONNECTING`; collaborator confirmation moves `CONNECTING` to
`CONNECTED`; disconnect moves `CONNECTED`/`CONNECTING` to `DISCONNECTING`;
the acknowledgement moves `DISCONNECTING` to `DISCONNECTED`; an unrecoverable
failure moves `CONNECTING`/`CONNECTED` to `ERRORED`.  A request received in a
state where it does not apply (e.g. connect while already `CONNECTED`) is a
benign no-op, modelled as `none`. -/
def stateStep : BREthereumLightNodeState → NodeCommand → Option BREthereumLightNodeState
  | .LIGHT_NODE_CREATED, .connectRequested => some .LIGHT_NODE_CONNECTING
  | .LIGHT_NODE_DISCONNECTED, .connectRequested => some .LIGHT_NODE_CONNECTING
  | .LIGHT_NODE_ERRORED, .connectRequested => some .LIGHT_NODE_CONNECTING
  | .LIGHT_NODE_CONNECTING, .connectConfirmed => some .LIGHT_NODE_CONNECTED
  | .LIGHT_NODE_CONNECTED, .disconnectRequested => some .LIGHT_NODE_DISCONNECTING
  | .LIGHT_NODE_CONNECTING, .disconnectRequested => some .LIGHT_NODE_DISCONNECTING
  | .LIGHT_NODE_DISCONNECTING, .disconnectAcked => some .LIGHT_NODE_DISCONNECTED
  | .LIGHT_NODE_CONNECTING, .protocolFailure => some .LIGHT_NODE_ERRORED
  | .LIGHT_NODE_CONNECTED, .protocolFailure => some .LIGHT_NODE_ERRORED
  | _, _ => none

/-- Index of the first element of the list satisfying `p`, scanning left to
right; `none` when no element satisfies it. -/
def findIdxOpt {α : Type} (p : α → Bool) : List α → Option Nat
  | [] => none
  | x :: xs => if p x then some 0 else (findIdxOpt p xs).map (fun i => i + 1)

/-- Modelled from the spec: the reserved "not found" sentinel id of the
registry lookups (§4.1, §7); ids are small non-negative integers, the sentinel
is a reserved invalid value. -/
def ID_UNKNOWN : Int := -1

/-- Modelled from the spec: the append-only identity-indexed insert backing
`lightNodeInsertWallet`, `lightNodeInsertBlock` and
`lightNodeInsertTransaction`, whose implementations are not among the
repository files (only the declarations at `BREthereumLightNodePrivate.h`
lines 190-216 are).  Entities are stored in insertion order and an entity's id
is its index; `key` realises the identity comparison (pointer identity in the
C source).  If the entity is already registered its existing id is returned
unchanged; otherwise the next sequential id is assigned. -/
def registryInsertBy {α κ : Type} [DecidableEq κ] (key : α → κ)
    (entries : List α) (e : α) : Nat × List α :=
  match findIdxOpt (fun x => decide (key x = key e)) entries with
  | some i => (i, entries)
  | none => (entries.length, entries ++ [e])

/-- Modelled from the spec: the identity lookup backing
`lightNodeLookupWalletId`, `lightNodeLookupBlockId` and
`lightNodeLookupTransactionId`: the id of a registered entity, or the
`ID_UNKNOWN` sentinel when the entity was never inserted. -/
def registryLookupIdBy {α κ : Type} [DecidableEq κ] (key : α → κ)
    (entries : List α) (e : α) : Int :=
  match findIdxOpt (fun x => decide (key x = key e)) entries with
  | some i => (i : Int)
  | none => ID_UNKNOWN

/-- A wallet as the coordinator sees it: an opaque identity token `wid`
(pointer identity in the C source), the asset it holds (`none` = the chain's
native asset Ether, `some t` = token `t`), and the identity tokens of the
transactions it owns. -/
structure Wallet where
  wid : Nat
  asset : Option Nat
  txs : List Nat
  deriving DecidableEq, Repr

/-- A transaction as delivered inside a block-bodies result: its opaque
identity token and the asset it moves (which determines its owning wallet). -/
structure Txn where
  tid : Nat
  asset : Option Nat
  deriving DecidableEq, Repr

/-- A registered listener: which of the five independently-optional callback
slots of `BREthereumLightNodeListener` (`BREthereumLightNodePrivate.h` lines
41-48) are set. -/
structure Listener where
  hasLightNodeHandler : Bool
  hasPeerHandler : Bool
  hasWalletHandler : Bool
  hasBlockHandler : Bool
  hasTransactionHandler : Bool
  deriving DecidableEq, Repr

/-- One queued Listener Event, carrying exactly the arguments of the
corresponding announce entry point declared at `BREthereumLightNodePrivate.h`
lines 50-86: a wallet event carries a wallet id, a block event a block id, a
transaction event a wallet id and a transaction id, and the peer and
light-node events carry no entity id at all (the id parameters are commented
out in the header). -/
inductive ListenerEvent where
  | walletEvent (wid : Nat) (event : Nat) (status : Nat) (err : Option Nat)
  | blockEvent (bid : Nat) (event : Nat) (status : Nat) (err : Option Nat)
  | transactionEvent (wid : Nat) (tid : Nat) (event : Nat) (status : Nat) (err : Option Nat)
  | peerEvent (event : Nat) (status : Nat) (err : Option Nat)
  | lightNodeEvent (event : Nat) (status : Nat) (err : Option Nat)
  deriving DecidableEq, Repr

/-- The entity ids an event carries, read off the announce signatures of the
header. -/
def ListenerEvent.entityIds : ListenerEvent → List Nat
  | .walletEvent wid _ _ _ => [wid]
  | .blockEvent bid _ _ _ => [bid]
  | .transactionEvent wid tid _ _ _ => [wid, tid]
  | .peerEvent _ _ _ => []
  | .lightNodeEvent _ _ _ => []

/-- Whether a listener's callback slot for this event's category is set. -/
def Listener.slotSet (l : Listener) : ListenerEvent → Bool
  | .walletEvent _ _ _ _ => l.hasWalletHandler
  | .blockEvent _ _ _ _ => l.hasBlockHandler
  | .transactionEvent _ _ _ _ _ => l.hasTransactionHandler
  | .peerEvent _ _ _ => l.hasPeerHandler
  | .lightNodeEvent _ _ _ => l.hasLightNodeHandler

/-- One observed callback invocation of the dispatch thread: which queued
event (by its enqueue position), which listener (by its registration
position), and the event delivered. -/
structure Invocation where
  eventIndex : Nat
  listenerIndex : Nat
  event : ListenerEvent
  deriving DecidableEq, Repr

/-- Modelled from the spec (§4.2): delivery of one dequeued event — the
matching callback slot is invoked on every registered listener, in
registration order, and a listener whose slot for the category is unset is
skipped.  `li` is the registration index of the first listener in `ls`. -/
def dispatchEventFrom (ei : Nat) (e : ListenerEvent) : Nat → List Listener → List Invocation
  | _, [] => []
  | li, l :: ls =>
    (if l.slotSet e then [⟨ei, li, e⟩] else []) ++ dispatchEventFrom ei e (li + 1) ls

/-- Modelled from the spec (§4.2): the dispatch thread draining the queue in
strict FIFO order; `ei` is the enqueue position of the first event of `q`. -/
def dispatchQueueFrom (ls : List Listener) : Nat → List ListenerEvent → List Invocation
  | _, [] => []
  | ei, e :: q => dispatchEventFrom ei e 0 ls ++ dispatchQueueFrom ls (ei + 1) q

/-- The complete trace of callback invocations produced by draining the
dispatch queue `q` for the registered listeners `ls`. -/
def dispatchTrace (ls : List Listener) (q : List ListenerEvent) : List Invocation :=
  dispatchQueueFrom ls 0 q

/-- Strict delivery order between two invocations: an earlier event precedes
a later one, and within one event listeners fire in registration order. -/
def InvocationBefore (a b : Invocation) : Prop :=
  a.eventIndex < b.eventIndex ∨ (a.eventIndex = b.eventIndex ∧ a.listenerIndex < b.listenerIndex)

/-- The width of the C `unsigned int` that stores `requestId`
(`BREthereumLightNodePrivate.h` line 166); modelled with the common 32-bit
width of that type. -/
def UINT_BITS : Nat := 32

/-- Modelled from the spec: the node-level Listener Event kind "block height
updated" (the event enum itself is not among the repository files). -/
def LIGHT_NODE_EVENT_BLOCK_HEIGHT_UPDATED : Nat := 0

/-- Modelled from the spec: the transaction Listener Event kind "transaction
added" fired when a block-bodies result inserts a transaction. -/
def TRANSACTION_EVENT_ADDED : Nat := 0

/-- Modelled from the spec: the success status of a Listener Event. -/
def SUCCESS : Nat := 0

/-- The shallow embedding of `struct BREthereumLightNodeRecord`
(`BREthereumLightNodePrivate.h` lines 112-188), restricted to the fields the
analysed behaviour touches: the lifecycle state, the wallets (with the
separately tracked `walletHoldingEther`), the transaction and block
registries (identity tokens in insertion order), `blockHeight`, `requestId`,
the registered listeners, and the queue feeding the listener dispatch
thread (`handlerForListener`). -/
structure LightNode where
  state : BREthereumLightNodeState
  wallets : List Wallet
  walletHoldingEther : Option Nat
  transactions : List Nat
  blocks : List Nat
  blockHeight : Nat
  requestId : Nat
  listeners : List Listener
  listenerQueue : List ListenerEvent
  deriving DecidableEq, Repr

/-- A freshly constructed node: `CREATED`, no wallets, empty registries,
height 0, request counter 0, no listeners. -/
def nodeZero : LightNode :=
  { state := .LIGHT_NODE_CREATED
    wallets := []
    walletHoldingEther := none
    transactions := []
    blocks := []
    blockHeight := 0
    requestId := 0
    listeners := []
    listenerQueue := [] }

/-- Whether wallet `w` owns the transaction with identity token `tid`. -/
def walletOwns (w : Wallet) (tid : Nat) : Bool :=
  decide (tid ∈ w.txs)

/-- How many wallets of `ws` own the transaction `tid`. -/
def ownerCount (ws : List Wallet) (tid : Nat) : Nat :=
  (ws.filter (fun w => walletOwns w tid)).length

/-- Modelled from the spec: `lightNodeLookupWalletByTransaction`
(`BREthereumLightNodePrivate.h` lines 194-196), whose implementation is not
among the repository files — returns the wallet that owns the transaction by
scanning the wallets' owned-transaction sets, or the "no owner" sentinel
(`none`, the C NULL) when none matches. -/
def lightNodeLookupWalletByTransaction (node : LightNode) (tid : Nat) : Option Wallet :=
  node.wallets.find? (fun w => walletOwns w tid)

/-- A wallet identity token unused by every current wallet: models the
allocation of a fresh wallet object. -/
def freshWalletId (node : LightNode) : Nat :=
  (node.wallets.map (fun w => w.wid)).foldr (fun a b => max a b) 0 + 1

/-- Modelled from the spec: wallets are created on demand, on first reference
to their asset (§3).  Returns the id of the wallet holding `asset`, creating
the wallet when absent; a created native-asset wallet becomes the node's
`walletHoldingEther`. -/
def lightNodeGetOrCreateWallet (node : LightNode) (asset : Option Nat) : Nat × LightNode :=
  match findIdxOpt (fun w => decide (w.asset = asset)) node.wallets with
  | some i => (i, node)
  | none =>
    (node.wallets.length,
     { node with
         wallets := node.wallets ++ [{ wid := freshWalletId node, asset := asset, txs := [] }]
         walletHoldingEther :=
           if asset = none then some (freshWalletId node) else node.walletHoldingEther })

/-- Add the transaction token `tid` to the owned-transaction set of the
wallet at index `i`. -/
def walletAddTx : List Wallet → Nat → Nat → List Wallet
  | [], _, _ => []
  | w :: ws, 0, tid => { w with txs := w.txs ++ [tid] } :: ws
  | w :: ws, i + 1, tid => w :: walletAddTx ws i tid

/-- Modelled from the spec (§4.3, block bodies): processing of one
transaction contained in a block-bodies result — insert it into the
Transaction registry and attribute it to its owning wallet (creating the
wallet if the asset is new); ownership is set at creation and never
reassigned, so a transaction that already has an owner is left with it.  A
transaction Listener Event fires once per inserted transaction. -/
def lightNodeHandleOneBodyTxn (node : LightNode) (t : Txn) : LightNode :=
  let inserted := registryInsertBy id node.transactions t.tid
  let node1 : LightNode := { node with transactions := inserted.2 }
  match findIdxOpt (fun w => walletOwns w t.tid) node1.wallets with
  | some _ => node1
  | none =>
    let created := lightNodeGetOrCreateWallet node1 t.asset
    let node2 := created.2
    { node2 with
        wallets := walletAddTx node2.wallets created.1 t.tid
        listenerQueue := node2.listenerQueue ++
          [ListenerEvent.transactionEvent created.1 inserted.1
            TRANSACTION_EVENT_ADDED SUCCESS none] }

/-- Modelled from the spec (§4.3): `lightNodeHandleBlockBodies`
(`BREthereumLightNodePrivate.h` lines 264-268), whose implementation is not
among the repository files — insert the block into the Block registry, then
process each contained transaction in order. -/
def lightNodeHandleBlockBodies (node : LightNode) (blockHash : Nat)
    (txns : List Txn) : LightNode :=
  txns.foldl lightNodeHandleOneBodyTxn
    { node with blocks := (registryInsertBy id node.blocks blockHash).2 }

/-- Modelled from the spec (§4.3): `lightNodeHandleAnnounce`
(`BREthereumLightNodePrivate.h` lines 254-258), whose implementation is not
among the repository files — update `blockHeight` if the announced head
number exceeds the current value and emit a node-level Listener Event (kind =
block height updated); otherwise leave the node unchanged. -/
def lightNodeHandleAnnounce (node : LightNode) (headNumber : Nat) : LightNode :=
  if node.blockHeight < headNumber then
    { node with
        blockHeight := headNumber
        listenerQueue := node.listenerQueue ++
          [ListenerEvent.lightNodeEvent LIGHT_NODE_EVENT_BLOCK_HEIGHT_UPDATED SUCCESS none] }
  else node

/-- Modelled from the spec (§4.4): the `requestId` generator — return the
current counter and store the incremented value, which wraps only modulo the
width of its C `unsigned int` storage. -/
def lightNodeGetThenIncrementRequestId (node : LightNode) : Nat × LightNode :=
  (node.requestId, { node with requestId := (node.requestId + 1) % 2 ^ UINT_BITS })

/-- The operations of the coordinator modelled in this development: a
lifecycle command, a chain-head announcement, a block-bodies result, the
on-demand wallet creation, the plain block and transaction registry inserts,
the request-id generator, and listener registration. -/
inductive NodeOp where
  | command (c : NodeCommand)
  | announce (headNumber : Nat)
  | blockBodies (blockHash : Nat) (txns : List Txn)
  | getOrCreateWallet (asset : Option Nat)
  | insertBlock (b : Nat)
  | insertTransaction (tid : Nat)
  | nextRequestId
  | addListener (l : Listener)
  deriving DecidableEq, Repr

/-- One step of the coordinator: apply an operation to the node state.  A
lifecycle command that applies moves the state and emits a node-level
Listener Event carrying the new state; one that does not apply is a benign
no-op (§4.4, §7). -/
def applyOp (node : LightNode) : NodeOp → LightNode
  | .command c =>
    match stateStep node.state c with
    | some s2 =>
      { node with
          state := s2
          listenerQueue := node.listenerQueue ++ [ListenerEvent.lightNodeEvent 1 SUCCESS none] }
    | none => node
  | .announce headNumber => lightNodeHandleAnnounce node headNumber
  | .blockBodies blockHash txns => lightNodeHandleBlockBodies node blockHash txns
  | .getOrCreateWallet asset => (lightNodeGetOrCreateWallet node asset).2
  | .insertBlock b => { node with blocks := (registryInsertBy id node.blocks b).2 }
  | .insertTransaction tid =>
    { node with transactions := (registryInsertBy id node.transactions tid).2 }
  | .nextRequestId => (lightNodeGetThenIncrementRequestId node).2
  | .addListener l => { node with listeners := node.listeners ++ [l] }

/-- The wallet-uniqueness invariant of §3: no two wallets hold the same asset
(hence at most one wallet per token and at most one native-asset wallet), and
every native-asset wallet is the one tracked as `walletHoldingEther`. -/
def WalletInvariant (node : LightNode) : Prop :=
  (node.wallets.map Wallet.asset).Nodup ∧
  ∀ w ∈ node.wallets, w.asset = none → node.walletHoldingEther = some w.wid

/-! ## Helper lemmas about `findIdxOpt` -/

theorem findIdxOpt_eq_none_iff {α : Type} (p : α → Bool) (l : List α) :
    findIdxOpt p l = none ↔ ∀ x ∈ l, p x = false := by
  induction l with
  | nil => simp [findIdxOpt]
  | cons x xs ih =>
    by_cases h : p x <;> simp [findIdxOpt, h, ih, Option.map_eq_none']

theorem findIdxOpt_some_lt {α : Type} (p : α → Bool) (l : List α) (i : Nat)
    (h : findIdxOpt p l = some i) : i < l.length := by
  induction l generalizing i with
  | nil => simp [findIdxOpt] at h
  | cons x xs ih =>
    simp only [findIdxOpt, List.length_cons] at h ⊢
    by_cases hx : p x
    · simp [hx] at h
      omega
    · simp only [hx, if_false, Bool.false_eq_true, Option.map_eq_some'] at h
      obtain ⟨j, hj, rfl⟩ := h
      have := ih j hj
      omega

theorem findIdxOpt_append_some {α : Type} (p : α → Bool) (l1 l2 : List α) (i : Nat)
    (h : findIdxOpt p l1 = some i) : findIdxOpt p (l1 ++ l2) = some i := by
  induction l1 generalizing i with
  | nil => simp [findIdxOpt] at h
  | cons x xs ih =>
    simp only [findIdxOpt, List.cons_append] at h ⊢
    by_cases hx : p x
    · simpa [hx] using h
    · simp only [hx, if_false, Bool.false_eq_true, Option.map_eq_some'] at h ⊢
      obtain ⟨j, hj, rfl⟩ := h
      exact ⟨j, ih j hj, rfl⟩

theorem findIdxOpt_append_singleton {α : Type} (p : α → Bool) (l : List α) (e : α)
    (h : findIdxOpt p l = none) (hp : p e = true) :
    findIdxOpt p (l ++ [e]) = some l.length := by
  induction l with
  | nil => simp [findIdxOpt, hp]
  | cons x xs ih =>
    have hx : p x = false := (findIdxOpt_eq_none_iff p _).mp h x (by simp)
    have hxs : findIdxOpt p xs = none := by
      rw [findIdxOpt_eq_none_iff]
      intro y hy
      exact (findIdxOpt_eq_none_iff p _).mp h y (by simp [hy])
    simp [findIdxOpt, hx, ih hxs]

theorem findIdxOpt_mem_isSome {α : Type} (p : α → Bool) (l : List α) (x : α)
    (hx : x ∈ l) (hp : p x = true) :
    ∃ i, findIdxOpt p l = some i ∧ i < l.length := by
  induction l with
  | nil => simp at hx
  | cons y ys ih =>
    by_cases hy : p y
    · exact ⟨0, by simp [findIdxOpt, hy], by simp⟩
    · rcases List.mem_cons.mp hx with rfl | hmem
      · simp [hp] at hy
      · obtain ⟨i, hi, hlt⟩ := ih hmem
        refine ⟨i + 1, by simp [findIdxOpt, hy, hi], ?_⟩
        simp only [List.length_cons]
        omega

/-! ## The registry claims: C1, C6, C8 -/

/-- Claim C1: for every registry (wallet, block, transaction) and every
entity, inserting the entity a second time returns the same id as the first
insert and leaves the registry unchanged, and one insert grows the registry by
at most one entry — insert is idempotent. -/
theorem registryInsert_idempotent {α κ : Type} [DecidableEq κ] (key : α → κ)
    (entries : List α) (e : α) :
    (registryInsertBy key (registryInsertBy key entries e).2 e).1 =
      (registryInsertBy key entries e).1 ∧
    (registryInsertBy key (registryInsertBy key entries e).2 e).2 =
      (registryInsertBy key entries e).2 ∧
    (registryInsertBy key entries e).2.length ≤ entries.length + 1 := by
  unfold registryInsertBy
  cases hfind : findIdxOpt (fun x => decide (key x = key e)) entries with
  | some i => simp [hfind]
  | none =>
    have happ := findIdxOpt_append_singleton
      (fun x => decide (key x = key e)) entries e hfind (by simp)
    simp [hfind, happ]

/-- Claim C6: looking up an entity that was never inserted returns the
reserved "not found" sentinel id, which is negative and therefore never a
valid id (valid ids are the non-negative registry indices); the lookup is a
total function, so it never signals a failure. -/
theorem lookupId_not_found {α κ : Type} [DecidableEq κ] (key : α → κ)
    (entries : List α) (e : α) (h : ∀ x ∈ entries, key x ≠ key e) :
    registryLookupIdBy key entries e = ID_UNKNOWN ∧
    ID_UNKNOWN < 0 ∧ ∀ i : Nat, ID_UNKNOWN ≠ (i : Int) := by
  have hnone : findIdxOpt (fun x => decide (key x = key e)) entries = none := by
    rw [findIdxOpt_eq_none_iff]
    intro x hx
    simpa using h x hx
  refine ⟨by simp [registryLookupIdBy, hnone], by norm_num [ID_UNKNOWN], ?_⟩
  intro i
  simp only [ID_UNKNOWN]
  omega

/-- Witness for C6 at a concrete registry: entities 10 and 20 are registered,
entity 30 is not. -/
theorem lookupId_not_found_witness :
    (∀ x ∈ [10, 20], id x ≠ id 30) ∧
    (registryLookupIdBy id [10, 20] 30 = ID_UNKNOWN ∧
     ID_UNKNOWN < 0 ∧ ∀ i : Nat, ID_UNKNOWN ≠ (i : Int)) :=
  ⟨by decide, lookupId_not_found id [10, 20] 30 (by decide)⟩

/-- Claim C8: inserting an entity not already registered returns the next
sequential id (the current size, i.e. one greater than the last assigned id),
appends the entity, keeps every previously assigned id mapped to its entity,
and never reuses an id: every previously assigned id is strictly below the
new id. -/
theorem registryInsert_fresh_sequential {α κ : Type} [DecidableEq κ] (key : α → κ)
    (entries : List α) (e : α) (h : ∀ x ∈ entries, key x ≠ key e) :
    (registryInsertBy key entries e).1 = entries.length ∧
    (registryInsertBy key entries e).2 = entries ++ [e] ∧
    (∀ x ∈ entries, registryLookupIdBy key (registryInsertBy key entries e).2 x =
      registryLookupIdBy key entries x) ∧
    (∀ x ∈ entries, registryLookupIdBy key entries x < (entries.length : Int)) := by
  have hnone : findIdxOpt (fun y => decide (key y = key e)) entries = none := by
    rw [findIdxOpt_eq_none_iff]
    intro x hx
    simpa using h x hx
  have hins1 : (registryInsertBy key entries e).1 = entries.length := by
    simp [registryInsertBy, hnone]
  have hins2 : (registryInsertBy key entries e).2 = entries ++ [e] := by
    simp [registryInsertBy, hnone]
  refine ⟨hins1, hins2, ?_, ?_⟩
  · intro x hx
    obtain ⟨i, hi, hlt⟩ :=
      findIdxOpt_mem_isSome (fun y => decide (key y = key x)) entries x hx (by simp)
    rw [hins2]
    simp [registryLookupIdBy, hi, findIdxOpt_append_some _ _ _ _ hi]
  · intro x hx
    obtain ⟨i, hi, hlt⟩ :=
      findIdxOpt_mem_isSome (fun y => decide (key y = key x)) entries x hx (by simp)
    simp only [registryLookupIdBy, hi]
    exact_mod_cast hlt

/-- Witness for C8 at a concrete registry: inserting unregistered entity 30
into a registry holding 10 and 20 assigns the next sequential id 2. -/
theorem registryInsert_fresh_sequential_witness :
    (∀ x ∈ [10, 20], id x ≠ id 30) ∧
    ((registryInsertBy id [10, 20] 30).1 = [10, 20].length ∧
     (registryInsertBy id [10, 20] 30).2 = [10, 20] ++ [30] ∧
     (∀ x ∈ [10, 20], registryLookupIdBy id (registryInsertBy id [10, 20] 30).2 x =
       registryLookupIdBy id [10, 20] x) ∧
     (∀ x ∈ [10, 20], registryLookupIdBy id [10, 20] x < (([10, 20] : List Nat).length : Int))) :=
  ⟨by decide, registryInsert_fresh_sequential id [10, 20] 30 (by decide)⟩

/-! ## The state machine claim: C2 -/

/-- Claim C2: the lifecycle state machine admits only the specified
transitions — from `CREATED` the only reachable next state is `CONNECTING`;
from `CONNECTED` the only reachable next states are `DISCONNECTING` and
`ERRORED`; `ERRORED` is reachable only from `CONNECTING` or `CONNECTED`; and
from `DISCONNECTED` or `ERRORED` the only command that causes a transition is
the explicit caller-triggered reconnect. -/
theorem stateStep_transitions (s s2 : BREthereumLightNodeState) (c : NodeCommand)
    (h : stateStep s c = some s2) :
    (s = BREthereumLightNodeState.LIGHT_NODE_CREATED →
      s2 = BREthereumLightNodeState.LIGHT_NODE_CONNECTING) ∧
    (s = BREthereumLightNodeState.LIGHT_NODE_CONNECTED →
      s2 = BREthereumLightNodeState.LIGHT_NODE_DISCONNECTING ∨
      s2 = BREthereumLightNodeState.LIGHT_NODE_ERRORED) ∧
    (s2 = BREthereumLightNodeState.LIGHT_NODE_ERRORED →
      s = BREthereumLightNodeState.LIGHT_NODE_CONNECTING ∨
      s = BREthereumLightNodeState.LIGHT_NODE_CONNECTED) ∧
    ((s = BREthereumLightNodeState.LIGHT_NODE_DISCONNECTED ∨
      s = BREthereumLightNodeState.LIGHT_NODE_ERRORED) →
      c = NodeCommand.connectRequested) := by
  revert h
  cases s <;> cases c <;> cases s2 <;> decide

/-- Witness for C2 at a concrete transition: connect moves `CREATED` to
`CONNECTING`. -/
theorem stateStep_transitions_witness :
    stateStep BREthereumLightNodeState.LIGHT_NODE_CREATED NodeCommand.connectRequested =
      some BREthereumLightNodeState.LIGHT_NODE_CONNECTING ∧
    ((BREthereumLightNodeState.LIGHT_NODE_CREATED =
        BREthereumLightNodeState.LIGHT_NODE_CREATED →
      BREthereumLightNodeState.LIGHT_NODE_CONNECTING =
        BREthereumLightNodeState.LIGHT_NODE_CONNECTING) ∧
     (BREthereumLightNodeState.LIGHT_NODE_CREATED =
        BREthereumLightNodeState.LIGHT_NODE_CONNECTED →
      BREthereumLightNodeState.LIGHT_NODE_CONNECTING =
        BREthereumLightNodeState.LIGHT_NODE_DISCONNECTING ∨
      BREthereumLightNodeState.LIGHT_NODE_CONNECTING =
        BREthereumLightNodeState.LIGHT_NODE_ERRORED) ∧
     (BREthereumLightNodeState.LIGHT_NODE_CONNECTING =
        BREthereumLightNodeState.LIGHT_NODE_ERRORED →
      BREthereumLightNodeState.LIGHT_NODE_CREATED =
        BREthereumLightNodeState.LIGHT_NODE_CONNECTING ∨
      BREthereumLightNodeState.LIGHT_NODE_CREATED =
        BREthereumLightNodeState.LIGHT_NODE_CONNECTED) ∧
     ((BREthereumLightNodeState.LIGHT_NODE_CREATED =
        BREthereumLightNodeState.LIGHT_NODE_DISCONNECTED ∨
       BREthereumLightNodeState.LIGHT_NODE_CREATED =
        BREthereumLightNodeState.LIGHT_NODE_ERRORED) →
      NodeCommand.connectRequested = NodeCommand.connectRequested)) :=
  ⟨rfl, stateStep_transitions BREthereumLightNodeState.LIGHT_NODE_CREATED
    BREthereumLightNodeState.LIGHT_NODE_CONNECTING NodeCommand.connectRequested rfl⟩

/-! ## Frame lemmas for the node operations -/

theorem getOrCreateWallet_frame (node : LightNode) (asset : Option Nat) :
    ((lightNodeGetOrCreateWallet node asset).2).requestId = node.requestId ∧
    ((lightNodeGetOrCreateWallet node asset).2).transactions = node.transactions ∧
    ((lightNodeGetOrCreateWallet node asset).2).blocks = node.blocks ∧
    ((lightNodeGetOrCreateWallet node asset).2).listenerQueue = node.listenerQueue ∧
    ((lightNodeGetOrCreateWallet node asset).2).state = node.state ∧
    ((lightNodeGetOrCreateWallet node asset).2).blockHeight = node.blockHeight := by
  unfold lightNodeGetOrCreateWallet
  split <;> simp

theorem handleOneBodyTxn_requestId (node : LightNode) (t : Txn) :
    (lightNodeHandleOneBodyTxn node t).requestId = node.requestId := by
  unfold lightNodeHandleOneBodyTxn
  dsimp only
  split
  · rfl
  · simp [(getOrCreateWallet_frame _ _).1]

theorem foldlOneBody_requestId (txns : List Txn) (node : LightNode) :
    (txns.foldl lightNodeHandleOneBodyTxn node).requestId = node.requestId := by
  induction txns generalizing node with
  | nil => rfl
  | cons t tl ih => rw [List.foldl_cons, ih, handleOneBodyTxn_requestId]

/-! ## The announcement claim: C3 -/

/-- Claim C3: an announcement carrying `headNumber` raises `blockHeight` to
`headNumber` exactly when it exceeds the current value (so the new height is
the maximum of the two), emits one node-level Listener Event (kind = block
height updated) exactly on an increase, leaves the node unchanged otherwise,
and `blockHeight` is non-decreasing over any sequence of announcements. -/
theorem handleAnnounce_blockHeight (node : LightNode) (headNumber : Nat)
    (heads : List Nat) :
    (lightNodeHandleAnnounce node headNumber).blockHeight =
      max node.blockHeight headNumber ∧
    (lightNodeHandleAnnounce node headNumber).listenerQueue = node.listenerQueue ++
      (if node.blockHeight < headNumber then
        [ListenerEvent.lightNodeEvent LIGHT_NODE_EVENT_BLOCK_HEIGHT_UPDATED SUCCESS none]
       else []) ∧
    (¬ node.blockHeight < headNumber → lightNodeHandleAnnounce node headNumber = node) ∧
    node.blockHeight ≤ (heads.foldl lightNodeHandleAnnounce node).blockHeight := by
  refine ⟨?_, ?_, ?_, ?_⟩
  · unfold lightNodeHandleAnnounce
    split <;> simp <;> omega
  · unfold lightNodeHandleAnnounce
    split <;> simp_all
  · intro h
    simp [lightNodeHandleAnnounce, h]
  · induction heads generalizing node with
    | nil => simp
    | cons hd tl ih =>
      refine le_trans ?_ (ih (lightNodeHandleAnnounce node hd))
      unfold lightNodeHandleAnnounce
      split <;> simp
      omega

/-! ## The request-id claim: C9 -/

/-- Claim C9: the request-id generator returns the current counter, stores
the value incremented modulo the width of the C `unsigned int` storage (so it
wraps only at that width and wrapping is not an error — the generator stays
total and well-defined), is strictly increasing while no wrap occurs, and no
other modelled operation ever resets or changes the counter. -/
theorem requestId_monotone_wrap (node : LightNode) (op : NodeOp) :
    (lightNodeGetThenIncrementRequestId node).1 = node.requestId ∧
    ((lightNodeGetThenIncrementRequestId node).2).requestId =
      (node.requestId + 1) % 2 ^ UINT_BITS ∧
    (node.requestId + 1 < 2 ^ UINT_BITS →
      node.requestId < ((lightNodeGetThenIncrementRequestId node).2).requestId) ∧
    (op ≠ NodeOp.nextRequestId → (applyOp node op).requestId = node.requestId) := by
  refine ⟨rfl, rfl, ?_, ?_⟩
  · intro h
    simp only [lightNodeGetThenIncrementRequestId, Nat.mod_eq_of_lt h]
    omega
  · intro _
    cases op with
    | command c =>
      simp only [applyOp]
      cases stateStep node.state c <;> simp
    | announce n =>
      simp only [applyOp]
      unfold lightNodeHandleAnnounce
      split <;> simp
    | blockBodies bh txns =>
      simp only [applyOp, lightNodeHandleBlockBodies]
      rw [foldlOneBody_requestId]
    | getOrCreateWallet asset => exact (getOrCreateWallet_frame node asset).1
    | insertBlock b => rfl
    | insertTransaction tid => rfl
    | nextRequestId => simp at *
    | addListener l => rfl

/-! ## Dispatch lemmas for C5 and C10 -/

theorem dispatchEventFrom_shape (ei : Nat) (e : ListenerEvent) (base : Nat)
    (ls : List Listener) :
    ∀ inv ∈ dispatchEventFrom ei e base ls,
      inv.eventIndex = ei ∧ base ≤ inv.listenerIndex := by
  induction ls generalizing base with
  | nil => simp [dispatchEventFrom]
  | cons l ls ih =>
    intro inv hinv
    simp only [dispatchEventFrom, List.mem_append] at hinv
    rcases hinv with h | h
    · by_cases hs : l.slotSet e <;> simp [hs] at h
      subst h
      exact ⟨rfl, le_refl _⟩
    · obtain ⟨h1, h2⟩ := ih (base + 1) inv h
      exact ⟨h1, by omega⟩

theorem dispatchEventFrom_pairwise (ei : Nat) (e : ListenerEvent) (base : Nat)
    (ls : List Listener) :
    (dispatchEventFrom ei e base ls).Pairwise InvocationBefore := by
  induction ls generalizing base with
  | nil => simp [dispatchEventFrom]
  | cons l ls ih =>
    simp only [dispatchEventFrom]
    by_cases hs : l.slotSet e
    · simp only [hs, if_true]
      rw [List.pairwise_append]
      refine ⟨by simp, ih (base + 1), ?_⟩
      intro a ha b hb
      obtain ⟨hb1, hb2⟩ := dispatchEventFrom_shape ei e (base + 1) ls b hb
      simp only [List.mem_singleton] at ha
      subst ha
      refine Or.inr ⟨?_, ?_⟩
      · show ei = b.eventIndex
        exact hb1.symm
      · show base < b.listenerIndex
        omega
    · simp only [hs, Bool.false_eq_true, if_false, List.nil_append]
      exact ih (base + 1)

theorem dispatchQueueFrom_shape (ls : List Listener) (ei : Nat)
    (q : List ListenerEvent) :
    ∀ inv ∈ dispatchQueueFrom ls ei q, ei ≤ inv.eventIndex := by
  induction q generalizing ei with
  | nil => simp [dispatchQueueFrom]
  | cons e q ih =>
    intro inv hinv
    simp only [dispatchQueueFrom, List.mem_append] at hinv
    rcases hinv with h | h
    · exact le_of_eq (dispatchEventFrom_shape ei e 0 ls inv h).1.symm
    · have := ih (ei + 1) inv h
      omega

theorem dispatchQueueFrom_pairwise (ls : List Listener) (ei : Nat)
    (q : List ListenerEvent) :
    (dispatchQueueFrom ls ei q).Pairwise InvocationBefore := by
  induction q generalizing ei with
  | nil => simp [dispatchQueueFrom]
  | cons e q ih =>
    simp only [dispatchQueueFrom]
    rw [List.pairwise_append]
    refine ⟨dispatchEventFrom_pairwise ei e 0 ls, ih (ei + 1), ?_⟩
    intro a ha b hb
    left
    have ha1 := (dispatchEventFrom_shape ei e 0 ls a ha).1
    have hb1 := dispatchQueueFrom_shape ls (ei + 1) q b hb
    omega

theorem dispatchEventFrom_mem (ei : Nat) (e : ListenerEvent) (base : Nat)
    (ls : List Listener) (li : Nat) (hl : li < ls.length)
    (hs : (ls.get ⟨li, hl⟩).slotSet e = true) :
    Invocation.mk ei (base + li) e ∈ dispatchEventFrom ei e base ls := by
  induction ls generalizing base li with
  | nil => simp at hl
  | cons l ls ih =>
    cases li with
    | zero =>
      have hs0 : l.slotSet e = true := hs
      simp [dispatchEventFrom, hs0]
    | succ n =>
      have hn : n < ls.length := by
        simp only [List.length_cons] at hl
        omega
      have hs2 : (ls.get ⟨n, hn⟩).slotSet e = true := hs
      have hmem := ih (base + 1) n hn hs2
      simp only [dispatchEventFrom, List.mem_append]
      right
      have harith : Invocation.mk ei (base + (n + 1)) e =
          Invocation.mk ei ((base + 1) + n) e := by
        congr 1
        omega
      rw [harith]
      exact hmem

theorem dispatchQueueFrom_mem (ls : List Listener) (ei0 : Nat)
    (q : List ListenerEvent) (ei : Nat) (he : ei < q.length)
    (li : Nat) (hl : li < ls.length)
    (hs : (ls.get ⟨li, hl⟩).slotSet (q.get ⟨ei, he⟩) = true) :
    Invocation.mk (ei0 + ei) li (q.get ⟨ei, he⟩) ∈ dispatchQueueFrom ls ei0 q := by
  induction q generalizing ei0 ei with
  | nil => simp at he
  | cons e q ih =>
    cases ei with
    | zero =>
      have hs0 : (ls.get ⟨li, hl⟩).slotSet e = true := hs
      simp only [dispatchQueueFrom, List.mem_append]
      left
      have hmem := dispatchEventFrom_mem ei0 e 0 ls li hl hs0
      have harith : Invocation.mk ei0 (0 + li) e = Invocation.mk ei0 li e := by
        congr 1
        omega
      rw [harith] at hmem
      exact hmem
    | succ n =>
      have hn : n < q.length := by
        simp only [List.length_cons] at he
        omega
      have hs2 : (ls.get ⟨li, hl⟩).slotSet (q.get ⟨n, hn⟩) = true := hs
      have hmem := ih (ei0 + 1) n hn hs2
      simp only [List.get_cons_succ, dispatchQueueFrom, List.mem_append]
      right
      have harith : Invocation.mk (ei0 + (n + 1)) li (q.get ⟨n, hn⟩) =
          Invocation.mk ((ei0 + 1) + n) li (q.get ⟨n, hn⟩) := by
        congr 1
        omega
      rw [harith]
      exact hmem

/-! ## The dispatch-order claim C5 and the event-payload claim C10 -/

/-- Claim C5: the dispatch trace is strictly ordered — every invocation of an
event enqueued earlier comes before every invocation of an event enqueued
later (strict FIFO per queue), and within one event listeners are invoked in
registration order; moreover every registered listener whose slot for the
event's category is set observes each queued event. -/
theorem dispatch_fifo (ls : List Listener) (q : List ListenerEvent) :
    (dispatchTrace ls q).Pairwise InvocationBefore ∧
    ∀ (ei li : Nat) (he : ei < q.length) (hl : li < ls.length),
      (ls.get ⟨li, hl⟩).slotSet (q.get ⟨ei, he⟩) = true →
      Invocation.mk ei li (q.get ⟨ei, he⟩) ∈ dispatchTrace ls q := by
  constructor
  · exact dispatchQueueFrom_pairwise ls 0 q
  · intro ei li he hl hs
    have := dispatchQueueFrom_mem ls 0 q ei he li hl hs
    simpa using this

/-- Claim C10: a transaction-level Listener Event carries exactly two entity
identifiers — the owning wallet's id and the transaction's id — its dispatch
goes to the transaction callback slot, and both ids are delivered (inside the
event) to every registered listener whose transaction callback is set; the
peer-level and node-level events carry no entity id at all. -/
theorem transactionEvent_carries_ids (wid tid event status : Nat)
    (err : Option Nat) (ls : List Listener) :
    (ListenerEvent.transactionEvent wid tid event status err).entityIds = [wid, tid] ∧
    (∀ l : Listener,
      l.slotSet (ListenerEvent.transactionEvent wid tid event status err) =
        l.hasTransactionHandler) ∧
    (∀ e s er, (ListenerEvent.peerEvent e s er).entityIds = []) ∧
    (∀ e s er, (ListenerEvent.lightNodeEvent e s er).entityIds = []) ∧
    ∀ (li : Nat) (hl : li < ls.length),
      (ls.get ⟨li, hl⟩).hasTransactionHandler = true →
      Invocation.mk 0 li (ListenerEvent.transactionEvent wid tid event status err) ∈
        dispatchTrace ls [ListenerEvent.transactionEvent wid tid event status err] := by
  refine ⟨rfl, fun l => rfl, fun _ _ _ => rfl, fun _ _ _ => rfl, ?_⟩
  intro li hl hs
  have hmem := dispatchQueueFrom_mem ls 0
    [ListenerEvent.transactionEvent wid tid event status err] 0 (by simp) li hl
    (by simpa [Listener.slotSet] using hs)
  simpa using hmem

/-! ## Wallet, asset and ownership lemmas for C4 and C7 -/

theorem findIdxOpt_some_get {α : Type} (p : α → Bool) (l : List α) (i : Nat)
    (h : findIdxOpt p l = some i) : ∃ x ∈ l, p x = true := by
  induction l generalizing i with
  | nil => simp [findIdxOpt] at h
  | cons x xs ih =>
    by_cases hx : p x
    · exact ⟨x, by simp, hx⟩
    · simp only [findIdxOpt, hx, Bool.false_eq_true, if_false, Option.map_eq_some'] at h
      obtain ⟨j, hj, _⟩ := h
      obtain ⟨y, hy, hp⟩ := ih j hj
      exact ⟨y, by simp [hy], hp⟩

theorem walletAddTx_map_asset (ws : List Wallet) (i tid : Nat) :
    (walletAddTx ws i tid).map Wallet.asset = ws.map Wallet.asset := by
  induction ws generalizing i with
  | nil => rfl
  | cons w ws ih =>
    cases i with
    | zero => simp [walletAddTx]
    | succ n => simp [walletAddTx, ih]

theorem walletAddTx_mem (ws : List Wallet) (i tid : Nat) (w2 : Wallet)
    (h : w2 ∈ walletAddTx ws i tid) :
    ∃ w ∈ ws, w2.wid = w.wid ∧ w2.asset = w.asset := by
  induction ws generalizing i with
  | nil => simp [walletAddTx] at h
  | cons w ws ih =>
    cases i with
    | zero =>
      rcases List.mem_cons.mp h with rfl | hmem
      · exact ⟨w, by simp, rfl, rfl⟩
      · exact ⟨w2, by simp [hmem], rfl, rfl⟩
    | succ n =>
      rcases List.mem_cons.mp h with rfl | hmem
      · exact ⟨w2, by simp, rfl, rfl⟩
      · obtain ⟨w0, hw0, h1, h2⟩ := ih n hmem
        exact ⟨w0, by simp [hw0], h1, h2⟩

theorem ownerCount_append (ws1 ws2 : List Wallet) (tid : Nat) :
    ownerCount (ws1 ++ ws2) tid = ownerCount ws1 tid + ownerCount ws2 tid := by
  simp [ownerCount, List.filter_append]

theorem ownerCount_addTx_self (ws : List Wallet) (i tid : Nat) (hi : i < ws.length)
    (h : ownerCount ws tid = 0) :
    ownerCount (walletAddTx ws i tid) tid = 1 := by
  induction ws generalizing i with
  | nil => simp at hi
  | cons w ws ih =>
    have hcons : ownerCount (w :: ws) tid =
        (if walletOwns w tid then 1 else 0) + ownerCount ws tid := by
      simp only [ownerCount, List.filter_cons]
      split <;> simp
      omega
    cases i with
    | zero =>
      have howns : walletOwns { w with txs := w.txs ++ [tid] } tid = true := by
        simp [walletOwns]
      have hobs : walletOwns w tid = false := by
        rw [hcons] at h
        by_cases hb : walletOwns w tid
        · simp [hb] at h
        · simpa using hb
      have hws : ownerCount ws tid = 0 := by
        rw [hcons, hobs] at h
        simpa using h
      simp only [walletAddTx, ownerCount, List.filter_cons, howns, if_true]
      simp only [ownerCount] at hws
      simp [hws]
    | succ n =>
      have hobs : walletOwns w tid = false := by
        rw [hcons] at h
        by_cases hb : walletOwns w tid
        · simp [hb] at h
        · simpa using hb
      have hws : ownerCount ws tid = 0 := by
        rw [hcons, hobs] at h
        simpa using h
      have hn : n < ws.length := by
        simp only [List.length_cons] at hi
        omega
      have := ih n hn hws
      simp only [walletAddTx, ownerCount, List.filter_cons, hobs, Bool.false_eq_true, if_false]
      simpa [ownerCount] using this

theorem ownerCount_addTx_other (ws : List Wallet) (i tid tid2 : Nat)
    (hne : tid2 ≠ tid) :
    ownerCount (walletAddTx ws i tid) tid2 = ownerCount ws tid2 := by
  induction ws generalizing i with
  | nil => simp [walletAddTx]
  | cons w ws ih =>
    cases i with
    | zero =>
      have howns : walletOwns { w with txs := w.txs ++ [tid] } tid2 = walletOwns w tid2 := by
        simp [walletOwns, hne]
      simp only [walletAddTx, ownerCount, List.filter_cons, howns]
      split <;> simp [ownerCount]
    | succ n =>
      simp only [walletAddTx, ownerCount, List.filter_cons]
      have := ih n
      simp only [ownerCount] at this
      split <;> simp [this]

theorem ownerCount_eq_zero_of_none (ws : List Wallet) (tid : Nat)
    (h : findIdxOpt (fun w => walletOwns w tid) ws = none) :
    ownerCount ws tid = 0 := by
  have habs := (findIdxOpt_eq_none_iff _ _).mp h
  unfold ownerCount
  rw [List.length_eq_zero, List.filter_eq_nil_iff]
  intro w hw
  simp [habs w hw]

theorem ownerCount_pos_of_some (ws : List Wallet) (tid j : Nat)
    (h : findIdxOpt (fun w => walletOwns w tid) ws = some j) :
    0 < ownerCount ws tid := by
  obtain ⟨w, hw, hp⟩ := findIdxOpt_some_get _ _ _ h
  exact List.length_pos_of_mem (List.mem_filter.mpr ⟨hw, hp⟩)

theorem find?_owns_of_count_pos (ws : List Wallet) (tid : Nat)
    (h : 0 < ownerCount ws tid) :
    ∃ w, ws.find? (fun w => walletOwns w tid) = some w ∧ tid ∈ w.txs := by
  induction ws with
  | nil => simp [ownerCount] at h
  | cons w ws ih =>
    by_cases hw : walletOwns w tid
    · refine ⟨w, List.find?_cons_of_pos ws hw, ?_⟩
      simpa [walletOwns] using hw
    · have hpos : 0 < ownerCount ws tid := by
        simpa [ownerCount, List.filter_cons, hw] using h
      obtain ⟨w2, hf, ho⟩ := ih hpos
      exact ⟨w2, by rw [List.find?_cons_of_neg ws hw]; exact hf, ho⟩

theorem find?_owns_of_count_zero (ws : List Wallet) (tid : Nat)
    (h : ownerCount ws tid = 0) :
    ws.find? (fun w => walletOwns w tid) = none := by
  induction ws with
  | nil => rfl
  | cons w ws ih =>
    by_cases hw : walletOwns w tid
    · simp [ownerCount, List.filter_cons, hw] at h
    · have hws : ownerCount ws tid = 0 := by
        simpa [ownerCount, List.filter_cons, hw] using h
      rw [List.find?_cons_of_neg ws hw]
      exact ih hws

theorem handleOneBodyTxn_wallets (node : LightNode) (t : Txn) :
    ((∃ j, findIdxOpt (fun w => walletOwns w t.tid) node.wallets = some j) ∧
      (lightNodeHandleOneBodyTxn node t).wallets = node.wallets) ∨
    (findIdxOpt (fun w => walletOwns w t.tid) node.wallets = none ∧
      ∃ i, i < node.wallets.length ∧
        (lightNodeHandleOneBodyTxn node t).wallets = walletAddTx node.wallets i t.tid) ∨
    (findIdxOpt (fun w => walletOwns w t.tid) node.wallets = none ∧
      ∃ w : Wallet, w.txs = [] ∧
        (lightNodeHandleOneBodyTxn node t).wallets =
          walletAddTx (node.wallets ++ [w]) node.wallets.length t.tid) := by
  unfold lightNodeHandleOneBodyTxn
  dsimp only
  split
  · rename_i j hj
    exact Or.inl ⟨⟨j, hj⟩, rfl⟩
  · rename_i hnone
    unfold lightNodeGetOrCreateWallet
    dsimp only
    split
    · rename_i i hi
      exact Or.inr (Or.inl ⟨hnone, i, findIdxOpt_some_lt _ _ _ hi, rfl⟩)
    · exact Or.inr (Or.inr ⟨hnone, ⟨freshWalletId node, t.asset, []⟩, rfl, rfl⟩)

theorem handleOneBodyTxn_count (node : LightNode) (t : Txn)
    (hinv : ∀ u, ownerCount node.wallets u ≤ 1) :
    ownerCount (lightNodeHandleOneBodyTxn node t).wallets t.tid = 1 ∧
    ∀ tid, tid ≠ t.tid →
      ownerCount (lightNodeHandleOneBodyTxn node t).wallets tid =
        ownerCount node.wallets tid := by
  rcases handleOneBodyTxn_wallets node t with
    ⟨⟨j, hj⟩, hw⟩ | ⟨hnone, i, hi, hw⟩ | ⟨hnone, w, hwtxs, hw⟩
  · rw [hw]
    refine ⟨?_, fun tid _ => rfl⟩
    have hpos := ownerCount_pos_of_some node.wallets t.tid j hj
    have := hinv t.tid
    omega
  · have hzero := ownerCount_eq_zero_of_none node.wallets t.tid hnone
    rw [hw]
    exact ⟨ownerCount_addTx_self _ _ _ hi hzero,
      fun tid hne => ownerCount_addTx_other _ _ _ _ hne⟩
  · have hzero := ownerCount_eq_zero_of_none node.wallets t.tid hnone
    have hcw : ownerCount [w] t.tid = 0 := by
      simp [ownerCount, walletOwns, hwtxs]
    have hzapp : ownerCount (node.wallets ++ [w]) t.tid = 0 := by
      rw [ownerCount_append, hzero, hcw]
    rw [hw]
    constructor
    · apply ownerCount_addTx_self _ _ _ (by simp) hzapp
    · intro tid hne
      rw [ownerCount_addTx_other _ _ _ _ hne, ownerCount_append]
      have : ownerCount [w] tid = 0 := by
        simp [ownerCount, walletOwns, hwtxs]
      omega

theorem handleOneBodyTxn_inv (node : LightNode) (t : Txn)
    (hinv : ∀ u, ownerCount node.wallets u ≤ 1) :
    ∀ u, ownerCount (lightNodeHandleOneBodyTxn node t).wallets u ≤ 1 := by
  intro u
  by_cases he : u = t.tid
  · subst he
    rw [(handleOneBodyTxn_count node t hinv).1]
  · rw [(handleOneBodyTxn_count node t hinv).2 u he]
    exact hinv u

theorem foldl_preserves_one (txns : List Txn) (node : LightNode) (tid : Nat)
    (hinv : ∀ u, ownerCount node.wallets u ≤ 1)
    (h1 : ownerCount node.wallets tid = 1) :
    ownerCount ((txns.foldl lightNodeHandleOneBodyTxn node)).wallets tid = 1 := by
  induction txns generalizing node with
  | nil => exact h1
  | cons t tl ih =>
    rw [List.foldl_cons]
    refine ih (lightNodeHandleOneBodyTxn node t) (handleOneBodyTxn_inv node t hinv) ?_
    by_cases he : tid = t.tid
    · subst he
      exact (handleOneBodyTxn_count node t hinv).1
    · rw [(handleOneBodyTxn_count node t hinv).2 tid he]
      exact h1

theorem foldlOneBody_count (txns : List Txn) (node : LightNode)
    (hinv : ∀ u, ownerCount node.wallets u ≤ 1) :
    (∀ u, ownerCount ((txns.foldl lightNodeHandleOneBodyTxn node)).wallets u ≤ 1) ∧
    ∀ t ∈ txns, ownerCount ((txns.foldl lightNodeHandleOneBodyTxn node)).wallets t.tid = 1 := by
  induction txns generalizing node with
  | nil => exact ⟨hinv, by simp⟩
  | cons t tl ih =>
    have hstep := handleOneBodyTxn_inv node t hinv
    obtain ⟨hfin_inv, hfin_mem⟩ := ih (lightNodeHandleOneBodyTxn node t) hstep
    rw [List.foldl_cons]
    refine ⟨hfin_inv, ?_⟩
    intro u hu
    rcases List.mem_cons.mp hu with rfl | hmem
    · exact foldl_preserves_one tl _ u.tid hstep (handleOneBodyTxn_count node u hinv).1
    · exact hfin_mem u hmem

/-! ## The transaction-ownership claim: C4 -/

/-- Claim C4: provided wallets own each transaction at most once (as they do
in every reachable state), every transaction contained in a processed
block-bodies result ends up owned by exactly one wallet, and
`lightNodeLookupWalletByTransaction` returns a wallet whose owned-transaction
set contains it; a transaction owned by no wallet makes the lookup return the
"no owner" sentinel. -/
theorem blockBodies_tx_ownership (node : LightNode) (blockHash : Nat) (txns : List Txn)
    (hinv : ∀ tid, ownerCount node.wallets tid ≤ 1) :
    (∀ t ∈ txns,
      ownerCount (lightNodeHandleBlockBodies node blockHash txns).wallets t.tid = 1 ∧
      ∃ w, lightNodeLookupWalletByTransaction
          (lightNodeHandleBlockBodies node blockHash txns) t.tid = some w ∧
        t.tid ∈ w.txs) ∧
    ∀ tid, ownerCount node.wallets tid = 0 →
      lightNodeLookupWalletByTransaction node tid = none := by
  have hbase : ∀ u,
      ownerCount ({ node with
        blocks := (registryInsertBy id node.blocks blockHash).2 } : LightNode).wallets u ≤ 1 :=
    hinv
  obtain ⟨hfin_inv, hfin_mem⟩ := foldlOneBody_count txns _ hbase
  constructor
  · intro t ht
    have h1 : ownerCount (lightNodeHandleBlockBodies node blockHash txns).wallets t.tid = 1 :=
      hfin_mem t ht
    refine ⟨h1, ?_⟩
    have hpos : 0 < ownerCount (lightNodeHandleBlockBodies node blockHash txns).wallets t.tid := by
      omega
    exact find?_owns_of_count_pos _ _ hpos
  · intro tid h0
    exact find?_owns_of_count_zero node.wallets tid h0

/-- Witness for C4 at a concrete input: a fresh node processes a block-bodies
result for block 7 containing the single native-asset transaction 5. -/
theorem blockBodies_tx_ownership_witness :
    (∀ tid, ownerCount nodeZero.wallets tid ≤ 1) ∧
    ((∀ t ∈ [Txn.mk 5 none],
        ownerCount (lightNodeHandleBlockBodies nodeZero 7 [Txn.mk 5 none]).wallets t.tid = 1 ∧
        ∃ w, lightNodeLookupWalletByTransaction
            (lightNodeHandleBlockBodies nodeZero 7 [Txn.mk 5 none]) t.tid = some w ∧
          t.tid ∈ w.txs) ∧
     ∀ tid, ownerCount nodeZero.wallets tid = 0 →
       lightNodeLookupWalletByTransaction nodeZero tid = none) :=
  ⟨fun _ => Nat.zero_le 1,
   blockBodies_tx_ownership nodeZero 7 [Txn.mk 5 none] (fun _ => Nat.zero_le 1)⟩

/-! ## The wallet-uniqueness claim: C7 -/

theorem getOrCreateWallet_walletInvariant (node : LightNode) (asset : Option Nat)
    (h : WalletInvariant node) :
    WalletInvariant (lightNodeGetOrCreateWallet node asset).2 := by
  obtain ⟨hnodup, hether⟩ := h
  unfold lightNodeGetOrCreateWallet
  cases hfind : findIdxOpt (fun w => decide (w.asset = asset)) node.wallets with
  | some i => exact ⟨hnodup, hether⟩
  | none =>
    have habs : ∀ w ∈ node.wallets, ¬ w.asset = asset := by
      intro w hw
      have := (findIdxOpt_eq_none_iff _ _).mp hfind w hw
      simpa using this
    constructor
    · simp only [List.map_append, List.map_cons, List.map_nil]
      rw [List.nodup_append]
      refine ⟨hnodup, List.nodup_singleton _, ?_⟩
      intro a ha hb
      simp only [List.mem_singleton] at hb
      subst hb
      obtain ⟨w, hw, hwa⟩ := List.mem_map.mp ha
      exact habs w hw hwa
    · intro w hw hwasset
      rcases List.mem_append.mp hw with hmem | hmem
      · by_cases hasset : asset = none
        · subst hasset
          exact absurd hwasset (habs w hmem)
        · simp only [hasset, if_false]
          exact hether w hmem hwasset
      · simp only [List.mem_singleton] at hmem
        subst hmem
        simp only at hwasset
        simp [hwasset]

theorem handleOneBodyTxn_walletInvariant (node : LightNode) (t : Txn)
    (h : WalletInvariant node) :
    WalletInvariant (lightNodeHandleOneBodyTxn node t) := by
  unfold lightNodeHandleOneBodyTxn
  dsimp only
  split
  · exact h
  · have h2 : WalletInvariant
        (lightNodeGetOrCreateWallet
          { node with transactions := (registryInsertBy id node.transactions t.tid).2 }
          t.asset).2 :=
      getOrCreateWallet_walletInvariant _ t.asset h
    obtain ⟨hnodup, hether⟩ := h2
    constructor
    · simpa only [walletAddTx_map_asset] using hnodup
    · intro w hw hwasset
      obtain ⟨w0, hw0, hwid, hasset⟩ := walletAddTx_mem _ _ _ w hw
      rw [hwid]
      exact hether w0 hw0 (by rw [← hasset]; exact hwasset)

theorem foldlOneBody_walletInvariant (txns : List Txn) (node : LightNode)
    (h : WalletInvariant node) :
    WalletInvariant (txns.foldl lightNodeHandleOneBodyTxn node) := by
  induction txns generalizing node with
  | nil => exact h
  | cons t tl ih =>
    rw [List.foldl_cons]
    exact ih _ (handleOneBodyTxn_walletInvariant node t h)

theorem nodupAssets_filter_le_one (ws : List Wallet)
    (h : (ws.map Wallet.asset).Nodup) (a : Option Nat) :
    (ws.filter (fun w => decide (w.asset = a))).length ≤ 1 := by
  induction ws with
  | nil => simp
  | cons w ws ih =>
    simp only [List.map_cons, List.nodup_cons] at h
    obtain ⟨hnotin, hnd⟩ := h
    by_cases hwa : w.asset = a
    · have hnil : ws.filter (fun w => decide (w.asset = a)) = [] := by
        rw [List.filter_eq_nil_iff]
        intro x hx
        simp only [decide_eq_true_eq]
        intro hxa
        exact hnotin (by rw [hwa, ← hxa]; exact List.mem_map_of_mem Wallet.asset hx)
      simp [List.filter_cons, hwa, hnil]
    · have hd : (decide (w.asset = a)) = false := by simp [hwa]
      simp only [List.filter_cons, hd, Bool.false_eq_true, if_false]
      exact ih hnd

/-- Claim C7: every modelled operation preserves the wallet-uniqueness
invariant — no two wallets hold the same asset — so in every reachable state
at most one wallet exists per asset identity (in particular at most one
wallet per token type and at most one native-asset wallet), and every
native-asset wallet is the one tracked as `walletHoldingEther`. -/
theorem wallet_asset_invariant (node : LightNode) (op : NodeOp)
    (h : WalletInvariant node) :
    WalletInvariant (applyOp node op) ∧
    (∀ a, ((applyOp node op).wallets.filter (fun w => decide (w.asset = a))).length ≤ 1) ∧
    ∀ w ∈ (applyOp node op).wallets, w.asset = none →
      (applyOp node op).walletHoldingEther = some w.wid := by
  have hpres : WalletInvariant (applyOp node op) := by
    cases op with
    | command c =>
      simp only [applyOp]
      cases stateStep node.state c with
      | some s2 => exact h
      | none => exact h
    | announce n =>
      simp only [applyOp]
      unfold lightNodeHandleAnnounce
      split
      · exact h
      · exact h
    | blockBodies bh txns =>
      simp only [applyOp, lightNodeHandleBlockBodies]
      exact foldlOneBody_walletInvariant txns _ h
    | getOrCreateWallet asset => exact getOrCreateWallet_walletInvariant node asset h
    | insertBlock b => exact h
    | insertTransaction tid => exact h
    | nextRequestId => exact h
    | addListener l => exact h
  exact ⟨hpres, fun a => nodupAssets_filter_le_one _ hpres.1 a, hpres.2⟩

/-- Witness for C7 at a concrete input: a fresh node creates its native-asset
wallet on demand. -/
theorem wallet_asset_invariant_witness :
    WalletInvariant nodeZero ∧
    (WalletInvariant (applyOp nodeZero (NodeOp.getOrCreateWallet none)) ∧
     (∀ a, ((applyOp nodeZero (NodeOp.getOrCreateWallet none)).wallets.filter
         (fun w => decide (w.asset = a))).length ≤ 1) ∧
     ∀ w ∈ (applyOp nodeZero (NodeOp.getOrCreateWallet none)).wallets, w.asset = none →
       (applyOp nodeZero (NodeOp.getOrCreateWallet none)).walletHoldingEther = some w.wid) :=
  ⟨⟨List.nodup_nil, fun w hw => absurd hw (List.not_mem_nil w)⟩,
   wallet_asset_invariant nodeZero (NodeOp.getOrCreateWallet none)
     ⟨List.nodup_nil, fun w hw => absurd hw (List.not_mem_nil w)⟩⟩
